import Mathlib

set_option maxHeartbeats 1000000

/-!
Verification development for the SQS wrapper (`aws_sqs_impl.py`) of the
AWS-Services-Insights repository.

The core of the repository is `SQSManager`: queue creation (standard vs FIFO),
single and batched sends, long-polling receive, per-message delete, and the
`process_messages` consume loop that parses each message body with
`json.loads`, invokes a user handler, and deletes the message only on success.

The embedding below models:
* Python's `json.dumps` / `json.loads` on the values the wrapper serializes
  (dict bodies with string keys; null, booleans, integers, strings with the
  standard `ensure_ascii` escaping including surrogate pairs, arrays, objects;
  float literals are outside the model, so the parser reads only integer
  numerals),
* the boto3 client as an explicit oracle argument (`svc` functions), so each
  wrapper method is a pure function of the oracle's response, returning both
  the Python-level return value and the list of transport calls/events it
  performs.
-/

namespace Sqs

/-- JSON values as serialized by `json.dumps` in the wrapper.  Numbers are
restricted to integers (the wrapper's example payloads use ints); object
fields are kept in insertion order, as Python dicts preserve it. -/
inductive JSON where
  | null
  | bool (b : Bool)
  | num (n : Int)
  | str (s : List Char)
  | arr (elems : List JSON)
  | obj (fields : List (List Char × JSON))

/-- Decimal digit character, `chr(48 + d)` for `d < 10`. -/
def digitChar (d : Nat) : Char := Char.ofNat (48 + d)

/-- Decimal digits of `n`, most significant first, prepended to `acc`. -/
def natToDecAux (n : Nat) (acc : List Char) : List Char :=
  if n < 10 then digitChar n :: acc
  else natToDecAux (n / 10) (digitChar (n % 10) :: acc)
termination_by n
decreasing_by exact Nat.div_lt_self (by omega) (by omega)

/-- Decimal representation of a natural number, as `repr` prints it. -/
def natToDec (n : Nat) : List Char := natToDecAux n []

/-- `json.dumps` of a Python int: optional minus sign and decimal digits. -/
def serializeInt (n : Int) : List Char :=
  if n < 0 then '-' :: natToDec n.natAbs else natToDec n.natAbs

/-- Lower-case hexadecimal digit character for `d < 16`. -/
def hexDigit (d : Nat) : Char := Char.ofNat (if d < 10 then 48 + d else 87 + d)

/-- One `\uXXXX` escape for a UTF-16 code unit `n < 0x10000`. -/
def encodeUnit (n : Nat) : List Char :=
  ['\x5c', 'u', hexDigit (n / 4096), hexDigit (n / 256 % 16),
   hexDigit (n / 16 % 16), hexDigit (n % 16)]

/-- `json.dumps` escaping of one character with `ensure_ascii=True`:
quote and backslash get two-character escapes, the named control characters
get their short escapes, printable ASCII passes through, everything else
becomes `\uXXXX` (a surrogate pair for astral code points). -/
def escapeChar (c : Char) : List Char :=
  if c = '\x22' then ['\x5c', '\x22']
  else if c = '\x5c' then ['\x5c', '\x5c']
  else if c.toNat = 8 then ['\x5c', 'b']
  else if c.toNat = 9 then ['\x5c', 't']
  else if c.toNat = 10 then ['\x5c', 'n']
  else if c.toNat = 12 then ['\x5c', 'f']
  else if c.toNat = 13 then ['\x5c', 'r']
  else if 32 ≤ c.toNat ∧ c.toNat ≤ 126 then [c]
  else if c.toNat < 65536 then encodeUnit c.toNat
  else
    encodeUnit (55296 + (c.toNat - 65536) / 1024) ++
      encodeUnit (56320 + (c.toNat - 65536) % 1024)

/-- Escape every character of a string body. -/
def escapeList : List Char → List Char
  | [] => []
  | c :: rest => escapeChar c ++ escapeList rest

/-- `json.dumps` of a Python string: quoted, escaped. -/
def serializeString (s : List Char) : List Char :=
  '\x22' :: escapeList s ++ ['\x22']

mutual

/-- `json.dumps(value)` with the default separators `", "` and `": "`. -/
def serialize : JSON → List Char
  | .num n => serializeInt n
  | .str s => serializeString s
  | .null => "null".toList
  | .bool b => if b then "true".toList else "false".toList
  | .arr [] => ['[', ']']
  | .arr (x :: xs) => '[' :: serializeElems (x :: xs) ++ [']']
  | .obj [] => ['\x7b', '\x7d']
  | .obj (f :: fs) => '\x7b' :: serializeMembers (f :: fs) ++ ['\x7d']

/-- Comma-space separated serialization of array elements. -/
def serializeElems : List JSON → List Char
  | [] => []
  | [x] => serialize x
  | x :: y :: ys => serialize x ++ ',' :: ' ' :: serializeElems (y :: ys)

/-- Comma-space separated serialization of object members (`"key": value`). -/
def serializeMembers : List (List Char × JSON) → List Char
  | [] => []
  | [(k, v)] => serializeString k ++ ':' :: ' ' :: serialize v
  | (k, v) :: m :: ms =>
      serializeString k ++ ':' :: ' ' :: serialize v ++ ',' :: ' ' ::
        serializeMembers (m :: ms)

end

/-! ### The `json.loads` side

A recursive-descent parser for the JSON subset above, skipping the standard
whitespace characters as `json.loads` does.  Recursion over nested values is
fueled; `json_loads` supplies fuel proportional to the input length, mirroring
Python's recursion limit on deeply nested documents. -/

/-- JSON whitespace (`' '`, `'\t'`, `'\n'`, `'\r'`). -/
def isWs (c : Char) : Bool :=
  c == ' ' || c == '\x09' || c == '\x0a' || c == '\x0d'

/-- Drop leading JSON whitespace. -/
def skipWs : List Char → List Char
  | [] => []
  | c :: rest => if isWs c then skipWs rest else c :: rest

/-- Is `c` a decimal digit? -/
def isDigitCh (c : Char) : Bool :=
  decide (48 ≤ c.toNat) && decide (c.toNat ≤ 57)

/-- Split a maximal prefix of decimal digits from the input. -/
def takeDigits : List Char → List Char × List Char
  | [] => ([], [])
  | c :: rest =>
    if isDigitCh c then
      let p := takeDigits rest
      (c :: p.1, p.2)
    else ([], c :: rest)

/-- Value of a string of decimal digits. -/
def digitsVal (ds : List Char) : Nat :=
  ds.foldl (fun a c => a * 10 + (c.toNat - 48)) 0

/-- Parse a nonempty run of decimal digits into a natural number. -/
def parseNat (s : List Char) : Option (Nat × List Char) :=
  match takeDigits s with
  | ([], _) => none
  | (ds, r) => some (digitsVal ds, r)

/-- Value of one hexadecimal digit character (either case), if any. -/
def fromHexDigit (c : Char) : Option Nat :=
  if 48 ≤ c.toNat ∧ c.toNat ≤ 57 then some (c.toNat - 48)
  else if 97 ≤ c.toNat ∧ c.toNat ≤ 102 then some (c.toNat - 87)
  else if 65 ≤ c.toNat ∧ c.toNat ≤ 70 then some (c.toNat - 55)
  else none

/-- Value of a four-digit hexadecimal escape body. -/
def hex4 (a b c d : Char) : Option Nat :=
  match fromHexDigit a, fromHexDigit b, fromHexDigit c, fromHexDigit d with
  | some x, some y, some z, some w => some (4096 * x + 256 * y + 16 * z + w)
  | _, _, _, _ => none

/-- Decode one backslash escape (the backslash is already consumed):
the short escapes, and `\uXXXX` with surrogate-pair combination exactly as
`json.loads` performs it.  A lone surrogate cannot be represented as a
scalar value and is rejected. -/
def decodeEscape : List Char → Option (Char × List Char)
  | [] => none
  | e :: rest =>
    if e = '\x22' then some ('\x22', rest)
    else if e = '\x5c' then some ('\x5c', rest)
    else if e = '/' then some ('/', rest)
    else if e = 'b' then some ('\x08', rest)
    else if e = 'f' then some ('\x0c', rest)
    else if e = 'n' then some ('\x0a', rest)
    else if e = 'r' then some ('\x0d', rest)
    else if e = 't' then some ('\x09', rest)
    else if e = 'u' then
      match rest with
      | a :: b :: c :: d :: r =>
        match hex4 a b c d with
        | none => none
        | some n =>
          if n < 55296 then some (Char.ofNat n, r)
          else if n < 56320 then
            match r with
            | e2 :: u2 :: a2 :: b2 :: c2 :: d2 :: r2 =>
              if e2 = '\x5c' ∧ u2 = 'u' then
                match hex4 a2 b2 c2 d2 with
                | none => none
                | some m =>
                  if 56320 ≤ m ∧ m < 57344 then
                    some (Char.ofNat (65536 + (n - 55296) * 1024 + (m - 56320)), r2)
                  else none
              else none
            | _ => none
          else if n < 57344 then none
          else some (Char.ofNat n, r)
      | _ => none
    else none

/-- Body of a JSON string literal (after the opening quote), fueled by the
length of the remaining input: literal characters, escapes, closing quote.
Unescaped control characters are rejected (`strict=True`). -/
def parseStringLoop : Nat → List Char → Option (List Char × List Char)
  | 0, _ => none
  | _, [] => none
  | fuel + 1, c :: rest =>
    if c = '\x22' then some ([], rest)
    else if c = '\x5c' then
      match decodeEscape rest with
      | none => none
      | some p => (parseStringLoop fuel p.2).map (fun q => (p.1 :: q.1, q.2))
    else if c.toNat < 32 then none
    else (parseStringLoop fuel rest).map (fun q => (c :: q.1, q.2))

/-- Parse a JSON string body; the fuel is sufficient for any input. -/
def parseStringBody (s : List Char) : Option (List Char × List Char) :=
  parseStringLoop (s.length + 1) s

mutual

/-- Parse one JSON value (with leading whitespace skipped). -/
def parseVal : Nat → List Char → Option (JSON × List Char)
  | 0, _ => none
  | fuel + 1, s =>
    match skipWs s with
    | [] => none
    | c :: rest =>
      if c = 'n' then
        match rest with
        | 'u' :: 'l' :: 'l' :: r => some (.null, r)
        | _ => none
      else if c = 't' then
        match rest with
        | 'r' :: 'u' :: 'e' :: r => some (.bool true, r)
        | _ => none
      else if c = 'f' then
        match rest with
        | 'a' :: 'l' :: 's' :: 'e' :: r => some (.bool false, r)
        | _ => none
      else if c = '\x22' then
        (parseStringBody rest).map (fun p => (.str p.1, p.2))
      else if c = '[' then
        match skipWs rest with
        | ']' :: r => some (.arr [], r)
        | _ => (parseElems fuel rest).map (fun p => (.arr p.1, p.2))
      else if c = '\x7b' then
        match skipWs rest with
        | '\x7d' :: r => some (.obj [], r)
        | _ => (parseMembers fuel rest).map (fun p => (.obj p.1, p.2))
      else if c = '-' then
        (parseNat rest).map (fun p => (.num (-(p.1 : Int)), p.2))
      else if isDigitCh c then
        (parseNat (c :: rest)).map (fun p => (.num (p.1 : Int), p.2))
      else none

/-- Parse the elements of a nonempty JSON array, consuming the closing `]`. -/
def parseElems : Nat → List Char → Option (List JSON × List Char)
  | 0, _ => none
  | fuel + 1, s =>
    match parseVal fuel s with
    | none => none
    | some (v, r) =>
      match skipWs r with
      | ',' :: r2 =>
        match parseElems fuel r2 with
        | none => none
        | some (vs, r3) => some (v :: vs, r3)
      | ']' :: r2 => some ([v], r2)
      | _ => none

/-- Parse the members of a nonempty JSON object, consuming the closing brace. -/
def parseMembers : Nat → List Char → Option (List (List Char × JSON) × List Char)
  | 0, _ => none
  | fuel + 1, s =>
    match skipWs s with
    | '\x22' :: r =>
      match parseStringBody r with
      | none => none
      | some (k, r2) =>
        match skipWs r2 with
        | ':' :: r3 =>
          match parseVal fuel r3 with
          | none => none
          | some (v, r4) =>
            match skipWs r4 with
            | ',' :: r5 =>
              match parseMembers fuel r5 with
              | none => none
              | some (fs, r6) => some ((k, v) :: fs, r6)
            | '\x7d' :: r5 => some ([(k, v)], r5)
            | _ => none
        | _ => none
    | _ => none

end

/-- `json.loads(s)`: parse one value, allow trailing whitespace only. -/
def json_loads (s : List Char) : Option JSON :=
  match parseVal (2 * s.length + 4) s with
  | some (v, r) =>
    match skipWs r with
    | [] => some v
    | _ => none
  | none => none

/-! ### The `SQSManager` wrapper

Each method of `SQSManager` is embedded as a pure function of the boto3
client's behaviour, passed in as an explicit `svc` oracle.  A `ClientError`
raised by the client is the oracle's `.error` result; the wrapper's
`try/except ClientError` is the match on it. -/

/-- A `botocore.exceptions.ClientError`, identified by its message. -/
structure ClientError where
  message : String
deriving DecidableEq

/-- The single `sqs.create_queue(QueueName=..., Attributes=...)` request that
`SQSManager.create_queue` issues. -/
structure CreateQueueCall where
  QueueName : String
  Attributes : List (String × String)
deriving DecidableEq

/-- `SQSManager.create_queue(queue_name, fifo)`.  Returns the Python return
value together with the list of transport requests issued.  If `fifo` is set
the name gains the `.fifo` suffix and the FIFO/dedup attributes are sent.
Note the source computes `queue_url = response['QueueUrl']`, logs it, and then
executes `return None` (line 38); the `ClientError` path also returns `None`. -/
def create_queue (svc : CreateQueueCall → Except ClientError String)
    (queue_name : String) (fifo : Bool) : Option String × List CreateQueueCall :=
  let name := if fifo then queue_name ++ ".fifo" else queue_name
  let attributes : List (String × String) :=
    if fifo then [("FifoQueue", "true"), ("ContentBasedDeduplication", "true")]
    else []
  let call : CreateQueueCall := ⟨name, attributes⟩
  match svc call with
  | .ok _queueUrl => (none, [call])
  | .error _ => (none, [call])

/-- A Python value passed as `message_body`: either a `dict` (serialized with
`json.dumps`) or a plain string (transmitted unchanged).  The
`isinstance(message_body, dict)` test in the source is the case split. -/
inductive PyBody where
  | pystr (s : List Char)
  | pydict (fields : List (List Char × JSON))

/-- The `MessageBody` value `SQSManager.send_message` transmits:
`json.dumps(message_body) if isinstance(message_body, dict) else message_body`. -/
def send_message_body : PyBody → List Char
  | .pystr s => s
  | .pydict fs => serialize (JSON.obj fs)

/-- `SQSManager.send_message` (attributes elided): returns the `MessageId`
from the transport, or `None` on `ClientError`. -/
def send_message (svc : List Char → Except ClientError String)
    (message_body : PyBody) : Option String :=
  match svc (send_message_body message_body) with
  | .ok messageId => some messageId
  | .error _ => none

/-- One entry of a `send_message_batch` request (`Id` is `str(i)`). -/
structure BatchEntry where
  Id : String
  MessageBody : List Char
deriving DecidableEq

/-- The transport's batch response: per-entry `Successful` / `Failed` ids. -/
structure BatchResponse where
  Successful : List String
  Failed : List String
deriving DecidableEq

/-- The entry list `SQSManager.send_message_batch` builds: one entry per
message, `Id = str(i)`, body serialized exactly as in `send_message`. -/
def sqsBatchEntries (messages : List PyBody) : List BatchEntry :=
  messages.enum.map (fun p => ⟨toString p.1, send_message_body p.2⟩)

/-- `SQSManager.send_message_batch`: builds all entries, issues a single
`sqs.send_message_batch` call with them, and returns the raw response
(`None` on `ClientError`).  The second component lists the transport calls
issued — always exactly one, whatever the batch size. -/
def send_message_batch (svc : List BatchEntry → Except ClientError BatchResponse)
    (messages : List PyBody) : Option BatchResponse × List (List BatchEntry) :=
  match svc (sqsBatchEntries messages) with
  | .ok response => (some response, [sqsBatchEntries messages])
  | .error _ => (none, [sqsBatchEntries messages])

/-- A message dict as returned by `receive_message`: the fields
`process_messages` reads. -/
structure SQSMessage where
  Body : List Char
  ReceiptHandle : String
deriving DecidableEq

/-- `SQSManager.receive_messages`: on success returns
`response.get('Messages', [])` (the `Option` models a response without the
`Messages` key); on `ClientError` it logs and returns `[]`. -/
def receive_messages (resp : Except ClientError (Option (List SQSMessage))) :
    List SQSMessage :=
  match resp with
  | .ok r => r.getD []
  | .error _ => []

/-- `SQSManager.delete_message`: `True` on success, `False` on `ClientError`. -/
def delete_message (svc : String → Except ClientError Unit)
    (receipt_handle : String) : Bool :=
  match svc receipt_handle with
  | .ok _ => true
  | .error _ => false

/-- Observable actions of one `process_messages` invocation. -/
inductive Event where
  | receiveCall
  | handlerCall (body : JSON)
  | deleteCall (receiptHandle : String)

/-- The body of the per-message `try` block of `process_messages`:
`json.loads(message['Body'])`, then `processor_func(body)`, then
`delete_message(queue_url, message['ReceiptHandle'])`.  Any exception
(parse failure or handler failure) is caught by the `except` and only logged,
so the function returns the events that happened before the exception. -/
def processOne (handler : JSON → Except String Unit) (m : SQSMessage) :
    List Event :=
  match json_loads m.Body with
  | none => []
  | some body =>
    match handler body with
    | .error _ => [.handlerCall body]
    | .ok _ => [.handlerCall body, .deleteCall m.ReceiptHandle]

/-- The `for message in messages` loop of `process_messages`. -/
def dispatchAll (handler : JSON → Except String Unit) :
    List SQSMessage → List Event
  | [] => []
  | m :: rest => processOne handler m ++ dispatchAll handler rest

/-- `SQSManager.process_messages(queue_url, processor_func)`: one
`receive_messages` call, then the dispatch loop over the returned batch;
the function then returns. -/
def process_messages (resp : Except ClientError (Option (List SQSMessage)))
    (handler : JSON → Except String Unit) : List Event :=
  Event.receiveCall :: dispatchAll handler (receive_messages resp)

/-- Does `e` record a delete of receipt handle `rh`? -/
def isDeleteFor (rh : String) : Event → Bool
  | .deleteCall r => r == rh
  | _ => false

/-- Does `e` record a receive call? -/
def isReceiveEv : Event → Bool
  | .receiveCall => true
  | _ => false

/-- Does message `m` carry receipt handle `rh`? -/
def hasRH (rh : String) (m : SQSMessage) : Bool := m.ReceiptHandle == rh

/-- Did the try block for `m` run to completion (parse and handler both
succeeded), i.e. was the message deleted? -/
def consumed (handler : JSON → Except String Unit) (m : SQSMessage) : Bool :=
  match json_loads m.Body with
  | none => false
  | some body =>
    match handler body with
    | .ok _ => true
    | .error _ => false

/-- The input after a serialized value never starts with a digit (it is
empty or starts with a separator/closer), so maximal-munch number parsing
stops at the right place. -/
def headNotDigit : List Char → Prop
  | [] => True
  | c :: _ => isDigitCh c = false

/-- Characters that can start `serialize v` for some `v`. -/
def goodStart (c : Char) : Bool :=
  c == 'n' || c == 't' || c == 'f' || c == '\x22' || c == '[' || c == '\x7b' ||
    c == '-' || isDigitCh c

/-! ## Theorems -/

/-- Characters with equal code points are equal. -/
theorem char_toNat_inj {c d : Char} (h : c.toNat = d.toNat) : c = d :=
  Char.eq_of_val_eq (UInt32.ext h)

/-- Every `Char` is a Unicode scalar value: below the surrogate range or
above it and below `0x110000`. -/
theorem char_valid (c : Char) :
    c.toNat < 55296 ∨ (57343 < c.toNat ∧ c.toNat < 1114112) := by
  have := c.valid
  unfold UInt32.isValidChar Nat.isValidChar at this
  exact this

/-- `digitChar` produces digit characters with the right code points. -/
theorem digitChar_spec :
    ∀ d, d < 10 → isDigitCh (digitChar d) = true ∧ (digitChar d).toNat - 48 = d := by
  decide

/-- The accumulator of `natToDecAux` is just appended to the digits. -/
theorem natToDecAux_append (n : Nat) (acc : List Char) :
    natToDecAux n acc = natToDecAux n [] ++ acc := by
  induction n using Nat.strong_induction_on generalizing acc with
  | _ n ih =>
    by_cases h : n < 10
    · conv_lhs => rw [natToDecAux]
      conv_rhs => rw [natToDecAux]
      simp [h]
    · have hlt : n / 10 < n := Nat.div_lt_self (by omega) (by omega)
      conv_lhs => rw [natToDecAux]
      conv_rhs => rw [natToDecAux]
      simp only [if_neg h]
      rw [ih (n / 10) hlt (digitChar (n % 10) :: acc),
        ih (n / 10) hlt [digitChar (n % 10)]]
      simp

/-- The decimal representation is nonempty and starts with a digit. -/
theorem natToDec_cons (n : Nat) :
    ∃ c t, natToDec n = c :: t ∧ isDigitCh c = true := by
  induction n using Nat.strong_induction_on with
  | _ n ih =>
    by_cases h : n < 10
    · refine ⟨digitChar n, [], ?_, (digitChar_spec n h).1⟩
      rw [natToDec, natToDecAux, if_pos h]
    · have hlt : n / 10 < n := Nat.div_lt_self (by omega) (by omega)
      obtain ⟨c, t, hct, hd⟩ := ih (n / 10) hlt
      refine ⟨c, t ++ [digitChar (n % 10)], ?_, hd⟩
      rw [natToDec, natToDecAux, if_neg h, natToDecAux_append, ← natToDec, hct]
      simp

/-- Every character of the decimal representation is a digit. -/
theorem natToDec_all_digits (n : Nat) :
    ∀ c ∈ natToDec n, isDigitCh c = true := by
  induction n using Nat.strong_induction_on with
  | _ n ih =>
    by_cases h : n < 10
    · rw [natToDec, natToDecAux, if_pos h]
      intro c hc
      have : c = digitChar n := by simpa using hc
      subst this
      exact (digitChar_spec n h).1
    · have hlt : n / 10 < n := Nat.div_lt_self (by omega) (by omega)
      rw [natToDec, natToDecAux, if_neg h, natToDecAux_append, ← natToDec]
      intro c hc
      rcases List.mem_append.mp hc with hc | hc
      · exact ih (n / 10) hlt c hc
      · have : c = digitChar (n % 10) := by simpa using hc
        subst this
        exact (digitChar_spec (n % 10) (by omega)).1

/-- Folding the digit-value step over `natToDec n` from `a` yields
`a * 10 ^ length + n`. -/
theorem foldl_natToDec (n : Nat) :
    ∀ a : Nat,
      List.foldl (fun a c => a * 10 + (c.toNat - 48)) a (natToDec n) =
        a * 10 ^ (natToDec n).length + n := by
  induction n using Nat.strong_induction_on with
  | _ n ih =>
    intro a
    by_cases h : n < 10
    · rw [natToDec, natToDecAux, if_pos h]
      simp [(digitChar_spec n h).2]
    · have hlt : n / 10 < n := Nat.div_lt_self (by omega) (by omega)
      rw [natToDec, natToDecAux, if_neg h, natToDecAux_append, ← natToDec]
      rw [List.foldl_append, ih (n / 10) hlt a]
      simp only [List.foldl_cons, List.foldl_nil, List.length_append,
        List.length_cons, List.length_nil]
      rw [(digitChar_spec (n % 10) (by omega)).2, pow_succ]
      have hq : n = 10 * (n / 10) + n % 10 := (Nat.div_add_mod n 10).symm
      set q := n / 10
      set r := n % 10
      set L := (natToDec q).length
      rw [hq]
      ring

/-- Reading the decimal representation back yields the original number. -/
theorem digitsVal_natToDec (n : Nat) : digitsVal (natToDec n) = n := by
  have := foldl_natToDec n 0
  simpa [digitsVal] using this

/-- `takeDigits` splits a digit-run followed by a non-digit exactly there. -/
theorem takeDigits_append (ds rest : List Char)
    (hds : ∀ c ∈ ds, isDigitCh c = true) (hrest : headNotDigit rest) :
    takeDigits (ds ++ rest) = (ds, rest) := by
  induction ds with
  | nil =>
    cases rest with
    | nil => rfl
    | cons c t =>
      have : isDigitCh c = false := hrest
      simp [takeDigits, this]
  | cons c t ih =>
    have hc : isDigitCh c = true := hds c (List.mem_cons_self _ _)
    simp [takeDigits, hc, ih (fun x hx => hds x (List.mem_cons_of_mem _ hx))]

/-- Parsing a serialized natural number recovers it. -/
theorem parseNat_natToDec (n : Nat) (rest : List Char)
    (hrest : headNotDigit rest) :
    parseNat (natToDec n ++ rest) = some (n, rest) := by
  obtain ⟨c, t, hct, _⟩ := natToDec_cons n
  rw [parseNat, takeDigits_append _ _ (natToDec_all_digits n) hrest, hct]
  simp only []
  rw [← hct, digitsVal_natToDec]

/-- A single dispatch emits no receive event. -/
theorem processOne_countP_receive (handler : JSON → Except String Unit)
    (m : SQSMessage) : (processOne handler m).countP isReceiveEv = 0 := by
  cases hj : json_loads m.Body with
  | none => simp [processOne, hj]
  | some body =>
    cases hh : handler body <;>
      simp [processOne, hj, hh, isReceiveEv, List.countP_cons]

/-- The dispatch loop emits no receive event. -/
theorem dispatchAll_countP_receive (handler : JSON → Except String Unit)
    (msgs : List SQSMessage) :
    (dispatchAll handler msgs).countP isReceiveEv = 0 := by
  induction msgs with
  | nil => simp [dispatchAll]
  | cons m rest ih =>
    simp [dispatchAll, List.countP_append, ih, processOne_countP_receive]

/-- C2, counterexample: invoked on a batch that comes back empty,
`process_messages` performs its single receive and returns at once — the
complete event trace of the invocation is `[receiveCall]`, so the `POLLING`
state is not re-entered after the (empty) batch, contradicting the claim that
the loop re-polls indefinitely and does not return after one cycle. -/
theorem c2_single_cycle_trace :
    process_messages (.ok (some [])) (fun _ => .ok ()) = [Event.receiveCall] :=
  rfl

/-- C2, amended: every invocation of `process_messages` performs exactly one
receive (one poll/dispatch cycle) and then returns; indefinite polling is
obtained only by the caller invoking it repeatedly. -/
theorem c2_one_receive_per_invocation
    (resp : Except ClientError (Option (List SQSMessage)))
    (handler : JSON → Except String Unit) :
    (process_messages resp handler).countP isReceiveEv = 1 := by
  simp [process_messages, List.countP_cons, dispatchAll_countP_receive,
    isReceiveEv]

/-- C1: `create_queue` builds the request (including the queue URL the
service returns in its response) but then executes `return None`, so the
caller never receives the handle — even though the usage example in the same
file assigns the result to `queue_url` and passes it to `send_message`.
Evaluating the embedding at the failing input: the service accepts the
request and returns a URL, yet the Python-level result is `None`. -/
theorem c1_create_queue_discards_url :
    (create_queue
      (fun _ =>
        Except.ok "https://sqs.us-east-1.amazonaws.com/123456789012/my-task-queue")
      "my-task-queue" false).1 = none :=
  rfl

/-- C6: with `fifo=True` the queue is created under the `.fifo`-suffixed name
with `FifoQueue` and `ContentBasedDeduplication` both `'true'`; with
`fifo=False` the name is unchanged and the attribute dict is empty —
whatever the transport answers. -/
theorem c6_fifo_naming_and_attributes
    (svc : CreateQueueCall → Except ClientError String) (name : String) :
    (create_queue svc name true).2 =
      [⟨name ++ ".fifo",
        [("FifoQueue", "true"), ("ContentBasedDeduplication", "true")]⟩] ∧
    (create_queue svc name false).2 = [⟨name, []⟩] := by
  constructor
  · simp only [create_queue]
    cases svc _ <;> rfl
  · simp only [create_queue]
    cases svc _ <;> rfl

/-- C8, counterexample: a transport-level fault during `receive_messages`
produces the very same return value as a normal zero-message (timeout)
outcome — the empty list — so the failure is not distinguishable by the
caller, contradicting the claim of an explicit failure signal. -/
theorem c8_fault_equals_empty :
    receive_messages (.error ⟨"NetworkError"⟩) =
      receive_messages (.ok (some [])) :=
  rfl

/-- C8, amended: a transport-level fault during `receive_messages` is caught,
logged, and reported as the empty list — the same value as the normal
zero-message outcome; the caller receives no explicit failure signal. -/
theorem c8_fault_yields_empty_list (e : ClientError) :
    receive_messages (.error e) = [] ∧
    receive_messages (.error e) = receive_messages (.ok (some [])) :=
  ⟨rfl, rfl⟩

/-- C7, counterexample: a batch send of 12 messages against a transport with
a per-call cap of 10 is *not* split into two calls — `send_message_batch`
issues a single 12-entry call, the transport rejects it as a whole, and the
caller gets `None` with no per-entry outcomes. -/
theorem c7_twelve_messages_single_call :
    (send_message_batch
      (fun entries =>
        if entries.length ≤ 10 then
          Except.ok ⟨entries.map (fun e => e.Id), []⟩
        else Except.error ⟨"TooManyEntriesInBatchRequest"⟩)
      (List.replicate 12 (PyBody.pystr ['m']))).1 = none ∧
    (send_message_batch
      (fun entries =>
        if entries.length ≤ 10 then
          Except.ok ⟨entries.map (fun e => e.Id), []⟩
        else Except.error ⟨"TooManyEntriesInBatchRequest"⟩)
      (List.replicate 12 (PyBody.pystr ['m']))).2.length = 1 :=
  ⟨rfl, rfl⟩

/-- C7, amended: `send_message_batch` always submits the whole message list
as one transport call; when the transport accepts the call, its per-entry
response (`Successful`/`Failed` ids) is passed through to the caller
unchanged.  It does not split batches that exceed the per-call cap. -/
theorem c7_per_entry_passthrough
    (svc : List BatchEntry → Except ClientError BatchResponse)
    (messages : List PyBody) (resp : BatchResponse)
    (h : svc (sqsBatchEntries messages) = .ok resp) :
    (send_message_batch svc messages).1 = some resp ∧
    (send_message_batch svc messages).2 = [sqsBatchEntries messages] := by
  simp [send_message_batch, h]

/-- `skipWs` leaves a non-whitespace head alone. -/
theorem skipWs_not_ws {c : Char} (l : List Char) (h : isWs c = false) :
    skipWs (c :: l) = c :: l := by
  simp [skipWs, h]

/-- `skipWs` absorbs a leading space. -/
theorem skipWs_space (s : List Char) : skipWs (' ' :: s) = skipWs s := by
  simp [skipWs, isWs]

/-- Every serialized value starts with one of the start characters. -/
theorem serialize_head (v : JSON) :
    ∃ c t, serialize v = c :: t ∧ goodStart c = true := by
  cases v with
  | null => exact ⟨'n', ['u', 'l', 'l'], by simp [serialize], by decide⟩
  | bool b =>
    cases b with
    | true => exact ⟨'t', ['r', 'u', 'e'], by simp [serialize], by decide⟩
    | false => exact ⟨'f', ['a', 'l', 's', 'e'], by simp [serialize], by decide⟩
  | num n =>
    by_cases h : n < 0
    · exact ⟨'-', natToDec n.natAbs, by simp [serialize, serializeInt, h],
        by decide⟩
    · obtain ⟨c, t, hct, hd⟩ := natToDec_cons n.natAbs
      exact ⟨c, t, by simp [serialize, serializeInt, h, hct],
        by simp [goodStart, hd]⟩
  | str s =>
    exact ⟨'\x22', escapeList s ++ ['\x22'],
      by simp [serialize, serializeString], by decide⟩
  | arr es =>
    cases es with
    | nil => exact ⟨'[', [']'], by simp [serialize], by decide⟩
    | cons x xs =>
      exact ⟨'[', serializeElems (x :: xs) ++ [']'], by simp [serialize],
        by decide⟩
  | obj fs =>
    cases fs with
    | nil => exact ⟨'\x7b', ['\x7d'], by simp [serialize], by decide⟩
    | cons f fs =>
      exact ⟨'\x7b', serializeMembers (f :: fs) ++ ['\x7d'], by simp [serialize],
        by decide⟩

/-- Start characters are not whitespace and are not closers. -/
theorem goodStart_props {c : Char} (h : goodStart c = true) :
    isWs c = false ∧ c ≠ ']' ∧ c ≠ '\x7d' := by
  simp only [goodStart, Bool.or_eq_true, beq_iff_eq] at h
  rcases h with ((((((h | h) | h) | h) | h) | h) | h) | h
  · subst h; exact ⟨by decide, by decide, by decide⟩
  · subst h; exact ⟨by decide, by decide, by decide⟩
  · subst h; exact ⟨by decide, by decide, by decide⟩
  · subst h; exact ⟨by decide, by decide, by decide⟩
  · subst h; exact ⟨by decide, by decide, by decide⟩
  · subst h; exact ⟨by decide, by decide, by decide⟩
  · subst h; exact ⟨by decide, by decide, by decide⟩
  · have h48 : 48 ≤ c.toNat ∧ c.toNat ≤ 57 := by
      have h2 := h
      unfold isDigitCh at h2
      simp only [Bool.and_eq_true, decide_eq_true_eq] at h2
      exact h2
    refine ⟨?_, fun he => ?_, fun he => ?_⟩
    · unfold isWs
      have h1 : (c == ' ') = false := by
        rw [beq_eq_false_iff_ne]; intro he; subst he; revert h48; decide
      have h2 : (c == '\x09') = false := by
        rw [beq_eq_false_iff_ne]; intro he; subst he; revert h48; decide
      have h3 : (c == '\x0a') = false := by
        rw [beq_eq_false_iff_ne]; intro he; subst he; revert h48; decide
      have h4 : (c == '\x0d') = false := by
        rw [beq_eq_false_iff_ne]; intro he; subst he; revert h48; decide
      rw [h1, h2, h3, h4]
      rfl
    · subst he; revert h48; decide
    · subst he; revert h48; decide

/-- A serialized value is nonempty. -/
theorem serialize_length_pos (v : JSON) : 0 < (serialize v).length := by
  obtain ⟨c, t, hct, _⟩ := serialize_head v
  simp [hct]

/-- `parseVal` skips a leading space. -/
theorem parseVal_space (f : Nat) (s : List Char) :
    parseVal f (' ' :: s) = parseVal f s := by
  cases f with
  | zero => rfl
  | succ g => simp only [parseVal, skipWs_space]

/-- `parseElems` skips a leading space. -/
theorem parseElems_space (f : Nat) (s : List Char) :
    parseElems f (' ' :: s) = parseElems f s := by
  cases f with
  | zero => rfl
  | succ g => simp only [parseElems, parseVal_space]

/-- `parseMembers` skips a leading space. -/
theorem parseMembers_space (f : Nat) (s : List Char) :
    parseMembers f (' ' :: s) = parseMembers f s := by
  cases f with
  | zero => rfl
  | succ g => simp only [parseMembers, skipWs_space]

/-- Reading back a hexadecimal digit character recovers its value. -/
theorem fromHexDigit_hexDigit :
    ∀ d, d < 16 → fromHexDigit (hexDigit d) = some d := by
  decide

/-- Reading back the four hex digits of a code unit recovers it. -/
theorem hex4_encode (n : Nat) (h : n < 65536) :
    hex4 (hexDigit (n / 4096)) (hexDigit (n / 256 % 16))
      (hexDigit (n / 16 % 16)) (hexDigit (n % 16)) = some n := by
  rw [hex4, fromHexDigit_hexDigit _ (by omega), fromHexDigit_hexDigit _ (by omega),
    fromHexDigit_hexDigit _ (by omega), fromHexDigit_hexDigit _ (by omega)]
  show some _ = some n
  congr 1
  omega

/-- Unfolding of `decodeEscape` on a `\u` escape. -/
theorem decodeEscape_u (a b c d : Char) (r : List Char) :
    decodeEscape ('u' :: a :: b :: c :: d :: r) =
      (match hex4 a b c d with
       | none => none
       | some n =>
         if n < 55296 then some (Char.ofNat n, r)
         else if n < 56320 then
           (match r with
            | e2 :: u2 :: a2 :: b2 :: c2 :: d2 :: r2 =>
              if e2 = '\x5c' ∧ u2 = 'u' then
                match hex4 a2 b2 c2 d2 with
                | none => none
                | some m =>
                  if 56320 ≤ m ∧ m < 57344 then
                    some (Char.ofNat (65536 + (n - 55296) * 1024 + (m - 56320)), r2)
                  else none
              else none
            | _ => none)
         else if n < 57344 then none
         else some (Char.ofNat n, r)) :=
  rfl

/-- Decoding the `\uXXXX` escape of a non-surrogate code unit recovers it. -/
theorem decodeEscape_unit (n : Nat) (tail : List Char)
    (hv : n < 55296 ∨ (57343 < n ∧ n < 65536)) :
    decodeEscape ('u' :: hexDigit (n / 4096) :: hexDigit (n / 256 % 16) ::
      hexDigit (n / 16 % 16) :: hexDigit (n % 16) :: tail) =
      some (Char.ofNat n, tail) := by
  have h16 : n < 65536 := by omega
  rw [decodeEscape_u, hex4_encode n h16]
  rcases hv with h | h
  · simp only []
    rw [if_pos h]
  · simp only []
    rw [if_neg (by omega), if_neg (by omega), if_neg (by omega)]

/-- Decoding the surrogate-pair escape of an astral code point recovers it. -/
theorem decodeEscape_surrogate (n : Nat) (tail : List Char)
    (h1 : 65536 ≤ n) (h2 : n < 1114112) :
    decodeEscape ('u' :: hexDigit ((55296 + (n - 65536) / 1024) / 4096) ::
      hexDigit ((55296 + (n - 65536) / 1024) / 256 % 16) ::
      hexDigit ((55296 + (n - 65536) / 1024) / 16 % 16) ::
      hexDigit ((55296 + (n - 65536) / 1024) % 16) ::
      '\x5c' :: 'u' :: hexDigit ((56320 + (n - 65536) % 1024) / 4096) ::
      hexDigit ((56320 + (n - 65536) % 1024) / 256 % 16) ::
      hexDigit ((56320 + (n - 65536) % 1024) / 16 % 16) ::
      hexDigit ((56320 + (n - 65536) % 1024) % 16) :: tail) =
      some (Char.ofNat n, tail) := by
  set hi := 55296 + (n - 65536) / 1024 with hhi
  set lo := 56320 + (n - 65536) % 1024 with hlo
  rw [decodeEscape_u, hex4_encode hi (by omega)]
  simp only []
  rw [if_neg (by omega), if_pos (by omega), if_pos (by decide),
    hex4_encode lo (by omega)]
  simp only []
  rw [if_pos (by omega)]
  have harg : 65536 + (hi - 55296) * 1024 + (lo - 56320) = n := by omega
  rw [harg]

/-- One step of `parseStringLoop` across a backslash escape. -/
theorem parseStringLoop_step_esc (f : Nat) (ch : Char) (etail s2 : List Char)
    (hdec : decodeEscape etail = some (ch, s2)) :
    parseStringLoop (f + 1) ('\x5c' :: etail) =
      (parseStringLoop f s2).map (fun q => (ch :: q.1, q.2)) := by
  rw [parseStringLoop, if_neg (by decide), if_pos rfl, hdec]

/-- Parsing the escaped form of `s` followed by a closing quote recovers
`s` exactly, for any sufficient fuel. -/
theorem parseStringLoop_escape (s : List Char) :
    ∀ fuel rest, (escapeList s).length + 1 ≤ fuel →
      parseStringLoop fuel (escapeList s ++ '\x22' :: rest) = some (s, rest) := by
  induction s with
  | nil =>
    intro fuel rest hf
    obtain ⟨f, rfl⟩ : ∃ f, fuel = f + 1 := ⟨fuel - 1, by omega⟩
    rw [escapeList]
    simp only [List.nil_append]
    rw [parseStringLoop, if_pos rfl]
  | cons c s ih =>
    intro fuel rest hf
    rw [escapeList] at hf ⊢
    rw [List.append_assoc]
    by_cases h1 : c = '\x22'
    · subst h1
      have he : escapeChar '\x22' = ['\x5c', '\x22'] := rfl
      rw [he] at hf ⊢
      obtain ⟨f, rfl⟩ : ∃ f, fuel = f + 1 := ⟨fuel - 1, by omega⟩
      simp only [List.cons_append, List.nil_append, List.length_cons,
        List.length_append] at hf ⊢
      rw [parseStringLoop_step_esc f '\x22'
        ('\x22' :: (escapeList s ++ '\x22' :: rest))
        (escapeList s ++ '\x22' :: rest) rfl, ih f rest (by omega)]
      rfl
    by_cases h2 : c = '\x5c'
    · subst h2
      have he : escapeChar '\x5c' = ['\x5c', '\x5c'] := rfl
      rw [he] at hf ⊢
      obtain ⟨f, rfl⟩ : ∃ f, fuel = f + 1 := ⟨fuel - 1, by omega⟩
      simp only [List.cons_append, List.nil_append, List.length_cons,
        List.length_append] at hf ⊢
      rw [parseStringLoop_step_esc f '\x5c'
        ('\x5c' :: (escapeList s ++ '\x22' :: rest))
        (escapeList s ++ '\x22' :: rest) rfl, ih f rest (by omega)]
      rfl
    by_cases h3 : c.toNat = 8
    · have hc : c = '\x08' := char_toNat_inj (by rw [h3]; rfl)
      subst hc
      have he : escapeChar '\x08' = ['\x5c', 'b'] := rfl
      rw [he] at hf ⊢
      obtain ⟨f, rfl⟩ : ∃ f, fuel = f + 1 := ⟨fuel - 1, by omega⟩
      simp only [List.cons_append, List.nil_append, List.length_cons,
        List.length_append] at hf ⊢
      rw [parseStringLoop_step_esc f '\x08'
        ('b' :: (escapeList s ++ '\x22' :: rest))
        (escapeList s ++ '\x22' :: rest) rfl, ih f rest (by omega)]
      rfl
    by_cases h4 : c.toNat = 9
    · have hc : c = '\x09' := char_toNat_inj (by rw [h4]; rfl)
      subst hc
      have he : escapeChar '\x09' = ['\x5c', 't'] := rfl
      rw [he] at hf ⊢
      obtain ⟨f, rfl⟩ : ∃ f, fuel = f + 1 := ⟨fuel - 1, by omega⟩
      simp only [List.cons_append, List.nil_append, List.length_cons,
        List.length_append] at hf ⊢
      rw [parseStringLoop_step_esc f '\x09'
        ('t' :: (escapeList s ++ '\x22' :: rest))
        (escapeList s ++ '\x22' :: rest) rfl, ih f rest (by omega)]
      rfl
    by_cases h5 : c.toNat = 10
    · have hc : c = '\x0a' := char_toNat_inj (by rw [h5]; rfl)
      subst hc
      have he : escapeChar '\x0a' = ['\x5c', 'n'] := rfl
      rw [he] at hf ⊢
      obtain ⟨f, rfl⟩ : ∃ f, fuel = f + 1 := ⟨fuel - 1, by omega⟩
      simp only [List.cons_append, List.nil_append, List.length_cons,
        List.length_append] at hf ⊢
      rw [parseStringLoop_step_esc f '\x0a'
        ('n' :: (escapeList s ++ '\x22' :: rest))
        (escapeList s ++ '\x22' :: rest) rfl, ih f rest (by omega)]
      rfl
    by_cases h6 : c.toNat = 12
    · have hc : c = '\x0c' := char_toNat_inj (by rw [h6]; rfl)
      subst hc
      have he : escapeChar '\x0c' = ['\x5c', 'f'] := rfl
      rw [he] at hf ⊢
      obtain ⟨f, rfl⟩ : ∃ f, fuel = f + 1 := ⟨fuel - 1, by omega⟩
      simp only [List.cons_append, List.nil_append, List.length_cons,
        List.length_append] at hf ⊢
      rw [parseStringLoop_step_esc f '\x0c'
        ('f' :: (escapeList s ++ '\x22' :: rest))
        (escapeList s ++ '\x22' :: rest) rfl, ih f rest (by omega)]
      rfl
    by_cases h7 : c.toNat = 13
    · have hc : c = '\x0d' := char_toNat_inj (by rw [h7]; rfl)
      subst hc
      have he : escapeChar '\x0d' = ['\x5c', 'r'] := rfl
      rw [he] at hf ⊢
      obtain ⟨f, rfl⟩ : ∃ f, fuel = f + 1 := ⟨fuel - 1, by omega⟩
      simp only [List.cons_append, List.nil_append, List.length_cons,
        List.length_append] at hf ⊢
      rw [parseStringLoop_step_esc f '\x0d'
        ('r' :: (escapeList s ++ '\x22' :: rest))
        (escapeList s ++ '\x22' :: rest) rfl, ih f rest (by omega)]
      rfl
    by_cases h8 : 32 ≤ c.toNat ∧ c.toNat ≤ 126
    · have he : escapeChar c = [c] := by
        simp [escapeChar, h1, h2, h3, h4, h5, h6, h7, h8]
      rw [he] at hf ⊢
      obtain ⟨f, rfl⟩ : ∃ f, fuel = f + 1 := ⟨fuel - 1, by omega⟩
      simp only [List.cons_append, List.nil_append, List.length_cons,
        List.length_append] at hf ⊢
      rw [parseStringLoop, if_neg h1, if_neg h2, if_neg (by omega),
        ih f rest (by omega)]
      rfl
    by_cases h9 : c.toNat < 65536
    · have he : escapeChar c = encodeUnit c.toNat := by
        simp [escapeChar, h1, h2, h3, h4, h5, h6, h7, h8, h9]
      rw [he] at hf ⊢
      obtain ⟨f, rfl⟩ : ∃ f, fuel = f + 1 := ⟨fuel - 1, by omega⟩
      have hval : c.toNat < 55296 ∨ (57343 < c.toNat ∧ c.toNat < 65536) := by
        rcases char_valid c with h | h
        · exact Or.inl h
        · exact Or.inr ⟨h.1, h9⟩
      simp only [encodeUnit, List.cons_append, List.nil_append,
        List.length_cons, List.length_append] at hf ⊢
      rw [parseStringLoop_step_esc f _ _ _
        (decodeEscape_unit c.toNat (escapeList s ++ '\x22' :: rest) hval),
        ih f rest (by omega)]
      simp [Char.ofNat_toNat]
    · -- astral code point: surrogate pair
      have h65 : 65536 ≤ c.toNat := by omega
      have hlt : c.toNat < 1114112 := by
        rcases char_valid c with h | h
        · omega
        · exact h.2
      have he : escapeChar c =
          encodeUnit (55296 + (c.toNat - 65536) / 1024) ++
            encodeUnit (56320 + (c.toNat - 65536) % 1024) := by
        simp [escapeChar, h1, h2, h3, h4, h5, h6, h7, h8, h9]
      rw [he] at hf ⊢
      obtain ⟨f, rfl⟩ : ∃ f, fuel = f + 1 := ⟨fuel - 1, by omega⟩
      simp only [encodeUnit, List.cons_append, List.nil_append,
        List.append_assoc, List.length_cons, List.length_append] at hf ⊢
      rw [parseStringLoop_step_esc f _ _ _
        (decodeEscape_surrogate c.toNat (escapeList s ++ '\x22' :: rest) h65 hlt),
        ih f rest (by omega)]
      simp [Char.ofNat_toNat]

/-- Parsing the escaped form of `s` followed by a closing quote recovers
`s` (wrapper with the fuel `parseStringBody` supplies). -/
theorem parseStringBody_escape (s rest : List Char) :
    parseStringBody (escapeList s ++ '\x22' :: rest) = some (s, rest) := by
  rw [parseStringBody]
  apply parseStringLoop_escape
  simp [List.length_append]

/-- `headNotDigit` holds for any list beginning with a non-digit. -/
theorem headNotDigit_cons {c : Char} (t : List Char) (h : isDigitCh c = false) :
    headNotDigit (c :: t) := h

/-- `skipWs` leaves a leading comma alone. -/
theorem skipWs_comma (l : List Char) : skipWs (',' :: l) = ',' :: l :=
  skipWs_not_ws _ (by decide)

/-- `skipWs` leaves a leading colon alone. -/
theorem skipWs_colon (l : List Char) : skipWs (':' :: l) = ':' :: l :=
  skipWs_not_ws _ (by decide)

/-- `skipWs` leaves a leading closing bracket alone. -/
theorem skipWs_rbrack (l : List Char) : skipWs (']' :: l) = ']' :: l :=
  skipWs_not_ws _ (by decide)

/-- `skipWs` leaves a leading closing brace alone. -/
theorem skipWs_rbrace (l : List Char) : skipWs ('\x7d' :: l) = '\x7d' :: l :=
  skipWs_not_ws _ (by decide)

/-- `skipWs` leaves a leading quote alone. -/
theorem skipWs_quote (l : List Char) : skipWs ('\x22' :: l) = '\x22' :: l :=
  skipWs_not_ws _ (by decide)

/-- `parseVal` on a digit head parses a (nonnegative) numeral. -/
theorem parseVal_digit (f : Nat) (c : Char) (r : List Char)
    (h : isDigitCh c = true) :
    parseVal (f + 1) (c :: r) =
      (parseNat (c :: r)).map (fun p => (JSON.num (p.1 : Int), p.2)) := by
  have hb : 48 ≤ c.toNat ∧ c.toNat ≤ 57 := by
    have h2 := h
    unfold isDigitCh at h2
    simp only [Bool.and_eq_true, decide_eq_true_eq] at h2
    exact h2
  have hw : isWs c = false := (goodStart_props (by simp [goodStart, h])).1
  have hn : c ≠ 'n' := fun he => by subst he; revert hb; decide
  have ht : c ≠ 't' := fun he => by subst he; revert hb; decide
  have hf2 : c ≠ 'f' := fun he => by subst he; revert hb; decide
  have hq : c ≠ '\x22' := fun he => by subst he; revert hb; decide
  have hlb : c ≠ '[' := fun he => by subst he; revert hb; decide
  have hob : c ≠ '\x7b' := fun he => by subst he; revert hb; decide
  have hm : c ≠ '-' := fun he => by subst he; revert hb; decide
  rw [parseVal, skipWs_not_ws _ hw]
  simp only [if_neg hn, if_neg ht, if_neg hf2, if_neg hq, if_neg hlb,
    if_neg hob, if_neg hm, if_pos h]

/-- `parseVal` unfolding on an opening bracket. -/
theorem parseVal_lbrack (f : Nat) (r : List Char) :
    parseVal (f + 1) ('[' :: r) = (match skipWs r with
      | ']' :: r2 => some (JSON.arr [], r2)
      | _ => (parseElems f r).map (fun p => (JSON.arr p.1, p.2))) := rfl

/-- `parseVal` unfolding on an opening brace. -/
theorem parseVal_lbrace (f : Nat) (r : List Char) :
    parseVal (f + 1) ('\x7b' :: r) = (match skipWs r with
      | '\x7d' :: r2 => some (JSON.obj [], r2)
      | _ => (parseMembers f r).map (fun p => (JSON.obj p.1, p.2))) := rfl

/-- `parseElems` unfolding at positive fuel. -/
theorem parseElems_succ (f : Nat) (s : List Char) :
    parseElems (f + 1) s = (match parseVal f s with
      | none => none
      | some (v, r) =>
        match skipWs r with
        | ',' :: r2 =>
          match parseElems f r2 with
          | none => none
          | some (vs, r3) => some (v :: vs, r3)
        | ']' :: r2 => some ([v], r2)
        | _ => none) := rfl

/-- `parseMembers` unfolding at positive fuel. -/
theorem parseMembers_succ (f : Nat) (s : List Char) :
    parseMembers (f + 1) s = (match skipWs s with
      | '\x22' :: r =>
        match parseStringBody r with
        | none => none
        | some (k, r2) =>
          match skipWs r2 with
          | ':' :: r3 =>
            match parseVal f r3 with
            | none => none
            | some (v, r4) =>
              match skipWs r4 with
              | ',' :: r5 =>
                match parseMembers f r5 with
                | none => none
                | some (fs, r6) => some ((k, v) :: fs, r6)
              | '\x7d' :: r5 => some ([(k, v)], r5)
              | _ => none
          | _ => none
      | _ => none) := rfl

/-- A nonempty element list serializes to something starting with a start
character. -/
theorem serializeElems_head (x : JSON) (xs : List JSON) :
    ∃ c t, serializeElems (x :: xs) = c :: t ∧ goodStart c = true := by
  obtain ⟨c, t, hct, hg⟩ := serialize_head x
  cases xs with
  | nil => exact ⟨c, t, by simp [serializeElems, hct], hg⟩
  | cons y ys =>
    exact ⟨c, t ++ ',' :: ' ' :: serializeElems (y :: ys),
      by simp [serializeElems, hct], hg⟩

/-- A nonempty member list serializes to something starting with a quote. -/
theorem serializeMembers_head (kv : List Char × JSON)
    (fs : List (List Char × JSON)) :
    ∃ t, serializeMembers (kv :: fs) = '\x22' :: t := by
  obtain ⟨k, v⟩ := kv
  cases fs with
  | nil =>
    exact ⟨escapeList k ++ ['\x22'] ++ ':' :: ' ' :: serialize v,
      by simp [serializeMembers, serializeString]⟩
  | cons g gs =>
    exact ⟨escapeList k ++ ['\x22'] ++ ':' :: ' ' :: serialize v ++
        ',' :: ' ' :: serializeMembers (g :: gs),
      by simp [serializeMembers, serializeString]⟩

mutual

/-- Round-trip: parsing a serialized JSON value recovers it, for any
sufficient fuel, with anything non-digit following. -/
theorem parse_serialize (v : JSON) :
    ∀ fuel rest, (serialize v).length + 1 ≤ fuel → headNotDigit rest →
      parseVal fuel (serialize v ++ rest) = some (v, rest) := by
  cases v with
  | null =>
    intro fuel rest hf hr
    obtain ⟨f, rfl⟩ : ∃ f, fuel = f + 1 := ⟨fuel - 1, by omega⟩
    rfl
  | bool b =>
    intro fuel rest hf hr
    obtain ⟨f, rfl⟩ : ∃ f, fuel = f + 1 := ⟨fuel - 1, by omega⟩
    cases b <;> rfl
  | num n =>
    intro fuel rest hf hr
    obtain ⟨f, rfl⟩ : ∃ f, fuel = f + 1 := ⟨fuel - 1, by omega⟩
    by_cases hn : n < 0
    · have hser : serialize (JSON.num n) = '-' :: natToDec n.natAbs := by
        simp [serialize, serializeInt, hn]
      rw [hser, List.cons_append]
      have hstep : parseVal (f + 1) ('-' :: (natToDec n.natAbs ++ rest)) =
          (parseNat (natToDec n.natAbs ++ rest)).map
            (fun p => (JSON.num (-(p.1 : Int)), p.2)) := rfl
      rw [hstep, parseNat_natToDec _ _ hr]
      have harg : -((n.natAbs : Nat) : Int) = n := by omega
      simp [harg, abs_of_neg hn]
    · have hser : serialize (JSON.num n) = natToDec n.natAbs := by
        simp [serialize, serializeInt, hn]
      obtain ⟨c, t, hct, hd⟩ := natToDec_cons n.natAbs
      rw [hser, hct, List.cons_append, parseVal_digit f c (t ++ rest) hd,
        ← List.cons_append, ← hct, parseNat_natToDec _ _ hr]
      have harg : ((n.natAbs : Nat) : Int) = n := by omega
      simp [harg, abs_of_nonneg (by omega : (0 : Int) ≤ n)]
  | str s =>
    intro fuel rest hf hr
    obtain ⟨f, rfl⟩ : ∃ f, fuel = f + 1 := ⟨fuel - 1, by omega⟩
    have hser : serialize (JSON.str s) ++ rest =
        '\x22' :: (escapeList s ++ '\x22' :: rest) := by
      simp [serialize, serializeString]
    rw [hser]
    have hstep : parseVal (f + 1) ('\x22' :: (escapeList s ++ '\x22' :: rest)) =
        (parseStringBody (escapeList s ++ '\x22' :: rest)).map
          (fun p => (JSON.str p.1, p.2)) := rfl
    rw [hstep, parseStringBody_escape]
    rfl
  | arr es =>
    cases es with
    | nil =>
      intro fuel rest hf hr
      obtain ⟨f, rfl⟩ : ∃ f, fuel = f + 1 := ⟨fuel - 1, by omega⟩
      rfl
    | cons x xs =>
      intro fuel rest hf hr
      obtain ⟨f, rfl⟩ : ∃ f, fuel = f + 1 := ⟨fuel - 1, by omega⟩
      have hser : serialize (JSON.arr (x :: xs)) ++ rest =
          '[' :: (serializeElems (x :: xs) ++ ']' :: rest) := by
        simp [serialize]
      have hlen : (serialize (JSON.arr (x :: xs))).length =
          (serializeElems (x :: xs)).length + 2 := by
        simp [serialize]
      rw [hser, parseVal_lbrack]
      obtain ⟨c, t, hct, hg⟩ := serializeElems_head x xs
      obtain ⟨hw, hnrb, _⟩ := goodStart_props hg
      have hsw : skipWs (serializeElems (x :: xs) ++ ']' :: rest) =
          c :: (t ++ ']' :: rest) := by
        rw [hct, List.cons_append, skipWs_not_ws _ hw]
      rw [hsw]
      split
      · next r2 heq =>
        exact absurd (List.head_eq_of_cons_eq heq) hnrb
      · next hne =>
        rw [parse_serializeElems x xs f rest (by omega)]
        rfl
  | obj fields =>
    cases fields with
    | nil =>
      intro fuel rest hf hr
      obtain ⟨f, rfl⟩ : ∃ f, fuel = f + 1 := ⟨fuel - 1, by omega⟩
      rfl
    | cons kv fs =>
      intro fuel rest hf hr
      obtain ⟨f, rfl⟩ : ∃ f, fuel = f + 1 := ⟨fuel - 1, by omega⟩
      have hser : serialize (JSON.obj (kv :: fs)) ++ rest =
          '\x7b' :: (serializeMembers (kv :: fs) ++ '\x7d' :: rest) := by
        simp [serialize]
      have hlen : (serialize (JSON.obj (kv :: fs))).length =
          (serializeMembers (kv :: fs)).length + 2 := by
        simp [serialize]
      rw [hser, parseVal_lbrace]
      obtain ⟨t, hct⟩ := serializeMembers_head kv fs
      have hsw : skipWs (serializeMembers (kv :: fs) ++ '\x7d' :: rest) =
          '\x22' :: (t ++ '\x7d' :: rest) := by
        rw [hct, List.cons_append, skipWs_quote]
      rw [hsw]
      split
      · next r2 heq =>
        exact absurd (List.head_eq_of_cons_eq heq) (by decide)
      · next hne =>
        rw [parse_serializeMembers kv fs f rest (by omega)]
        rfl
termination_by sizeOf v

/-- Round-trip for nonempty array element lists. -/
theorem parse_serializeElems (x : JSON) (xs : List JSON) :
    ∀ fuel rest, (serializeElems (x :: xs)).length + 2 ≤ fuel →
      parseElems fuel (serializeElems (x :: xs) ++ ']' :: rest) =
        some (x :: xs, rest) := by
  cases xs with
  | nil =>
    intro fuel rest hf
    obtain ⟨f, rfl⟩ : ∃ f, fuel = f + 1 := ⟨fuel - 1, by omega⟩
    have hone : serializeElems [x] = serialize x := by simp [serializeElems]
    rw [hone] at hf ⊢
    rw [parseElems_succ]
    simp only [parse_serialize x f (']' :: rest) (by omega)
      (headNotDigit_cons _ (by decide)), skipWs_rbrack]
  | cons y ys =>
    intro fuel rest hf
    obtain ⟨f, rfl⟩ : ∃ f, fuel = f + 1 := ⟨fuel - 1, by omega⟩
    have htwo : serializeElems (x :: y :: ys) =
        serialize x ++ ',' :: ' ' :: serializeElems (y :: ys) := by
      simp [serializeElems]
    rw [htwo] at hf ⊢
    have hflen : (serialize x).length + 2 + (serializeElems (y :: ys)).length + 2
        ≤ f + 1 := by
      simp only [List.length_append, List.length_cons] at hf
      omega
    rw [List.append_assoc, List.cons_append, List.cons_append, parseElems_succ]
    simp only [parse_serialize x f
      (',' :: ' ' :: (serializeElems (y :: ys) ++ ']' :: rest)) (by omega)
      (headNotDigit_cons _ (by decide)), skipWs_comma, parseElems_space,
      parse_serializeElems y ys f rest (by omega)]
termination_by sizeOf x + sizeOf xs

/-- Round-trip for nonempty object member lists. -/
theorem parse_serializeMembers (kv : List Char × JSON)
    (fs : List (List Char × JSON)) :
    ∀ fuel rest, (serializeMembers (kv :: fs)).length + 2 ≤ fuel →
      parseMembers fuel (serializeMembers (kv :: fs) ++ '\x7d' :: rest) =
        some (kv :: fs, rest) := by
  obtain ⟨k, v⟩ := kv
  cases fs with
  | nil =>
    intro fuel rest hf
    obtain ⟨f, rfl⟩ : ∃ f, fuel = f + 1 := ⟨fuel - 1, by omega⟩
    have hone : serializeMembers [(k, v)] =
        serializeString k ++ ':' :: ' ' :: serialize v := by
      simp [serializeMembers]
    rw [hone] at hf ⊢
    have hflen : (escapeList k).length + 2 + (serialize v).length + 2 ≤ f + 1 := by
      simp only [serializeString, List.length_append, List.length_cons,
        List.length_nil] at hf
      omega
    have hnorm : (serializeString k ++ ':' :: ' ' :: serialize v) ++ '\x7d' :: rest =
        '\x22' :: (escapeList k ++
          '\x22' :: (':' :: ' ' :: (serialize v ++ '\x7d' :: rest))) := by
      simp [serializeString]
    rw [hnorm, parseMembers_succ]
    simp only [skipWs_quote, parseStringBody_escape, skipWs_colon,
      parseVal_space,
      parse_serialize v f ('\x7d' :: rest) (by omega)
        (headNotDigit_cons _ (by decide)),
      skipWs_rbrace]
  | cons g gs =>
    intro fuel rest hf
    obtain ⟨f, rfl⟩ : ∃ f, fuel = f + 1 := ⟨fuel - 1, by omega⟩
    have htwo : serializeMembers ((k, v) :: g :: gs) =
        serializeString k ++ ':' :: ' ' :: serialize v ++
          ',' :: ' ' :: serializeMembers (g :: gs) := by
      simp [serializeMembers]
    rw [htwo] at hf ⊢
    have hflen : (escapeList k).length + 2 + (serialize v).length +
        (serializeMembers (g :: gs)).length + 4 ≤ f + 1 := by
      simp only [serializeString, List.length_append, List.length_cons,
        List.length_nil] at hf
      omega
    have hnorm : (serializeString k ++ ':' :: ' ' :: serialize v ++
          ',' :: ' ' :: serializeMembers (g :: gs)) ++ '\x7d' :: rest =
        '\x22' :: (escapeList k ++ '\x22' :: (':' :: ' ' ::
          (serialize v ++ ',' :: ' ' ::
            (serializeMembers (g :: gs) ++ '\x7d' :: rest)))) := by
      simp [serializeString]
    rw [hnorm, parseMembers_succ]
    simp only [skipWs_quote, parseStringBody_escape, skipWs_colon,
      parseVal_space,
      parse_serialize v f
        (',' :: ' ' :: (serializeMembers (g :: gs) ++ '\x7d' :: rest))
        (by omega) (headNotDigit_cons _ (by decide)),
      skipWs_comma, parseMembers_space,
      parse_serializeMembers g gs f rest (by omega)]
termination_by sizeOf kv + sizeOf fs

end

/-- Round-trip at the `json_loads`/`json.dumps` level. -/
theorem json_loads_serialize (v : JSON) : json_loads (serialize v) = some v := by
  rw [json_loads]
  have hp := parse_serialize v (2 * (serialize v).length + 4) []
    (by omega) trivial
  rw [List.append_nil] at hp
  simp only [hp, skipWs]

/-- C9: a structured (dict) body sent through `send_message` (serialized with
`json.dumps`) and later delivered to `process_messages` is parsed back by
`json.loads` to exactly the body that was sent, and that equal body is what
the handler receives (it is the first event of the message's dispatch,
whatever the handler then does). -/
theorem c9_dict_body_roundtrip (fields : List (List Char × JSON)) (rh : String)
    (handler : JSON → Except String Unit) :
    json_loads (send_message_body (.pydict fields)) = some (.obj fields) ∧
    (processOne handler ⟨send_message_body (.pydict fields), rh⟩).head? =
      some (.handlerCall (.obj fields)) := by
  have h : json_loads (send_message_body (.pydict fields)) =
      some (JSON.obj fields) := json_loads_serialize (JSON.obj fields)
  refine ⟨h, ?_⟩
  simp only [processOne, h]
  cases handler (JSON.obj fields) <;> rfl

/-- Delete events of a single dispatch, counted: a delete for `rh` happens
exactly when the message carries `rh` and its try block ran to completion. -/
theorem processOne_countP_delete (handler : JSON → Except String Unit)
    (m : SQSMessage) (rh : String) :
    (processOne handler m).countP (isDeleteFor rh) =
      if hasRH rh m && consumed handler m then 1 else 0 := by
  cases hj : json_loads m.Body with
  | none => simp [processOne, consumed, hj]
  | some body =>
    cases hh : handler body with
    | error e =>
      simp [processOne, consumed, hj, hh, isDeleteFor, List.countP_cons]
    | ok u =>
      simp only [processOne, consumed, hj, hh, List.countP_cons,
        List.countP_nil, isDeleteFor, hasRH, Bool.and_true]
      simp

/-- Delete events of the whole dispatch loop, counted per batch. -/
theorem dispatchAll_countP_delete (handler : JSON → Except String Unit)
    (msgs : List SQSMessage) (rh : String) :
    (dispatchAll handler msgs).countP (isDeleteFor rh) =
      msgs.countP (fun m => hasRH rh m && consumed handler m) := by
  induction msgs with
  | nil => simp [dispatchAll]
  | cons m rest ih =>
    simp [dispatchAll, List.countP_append, List.countP_cons, ih,
      processOne_countP_delete]
    omega

/-- C3: if the handler raises on a delivered message, `process_messages`
issues no delete for that message's receipt token (tokens are assumed unique
within the batch, as the transport guarantees), leaving it to reappear after
the visibility window. -/
theorem c3_no_delete_on_handler_failure (msgs : List SQSMessage)
    (handler : JSON → Except String Unit) (m : SQSMessage) (b : JSON)
    (e : String) (hm : m ∈ msgs) (hb : json_loads m.Body = some b)
    (hf : handler b = .error e)
    (hu : ∀ m2 ∈ msgs, hasRH m.ReceiptHandle m2 = true → m2 = m) :
    (process_messages (.ok (some msgs)) handler).countP
      (isDeleteFor m.ReceiptHandle) = 0 := by
  have hc : consumed handler m = false := by simp [consumed, hb, hf]
  simp only [process_messages, receive_messages, Option.getD_some,
    List.countP_cons, dispatchAll_countP_delete]
  have h0 : (Event.receiveCall :: []).countP (isDeleteFor m.ReceiptHandle) = 0 := by
    simp [isDeleteFor]
  rw [List.countP_eq_zero.mpr]
  · simp [isDeleteFor]
  · intro m2 hm2
    by_cases hr : hasRH m.ReceiptHandle m2 = true
    · have := hu m2 hm2 hr
      subst this
      simp [hc]
    · simp [Bool.eq_false_iff.mpr hr]

/-- C4: a handler failure on one message of a batch neither aborts the loop
nor prevents the handler from being invoked on every other parseable message
of the same batch: whatever the handler does elsewhere, each member of the
batch whose body parses gets its handler call in the trace. -/
theorem c4_sibling_messages_still_dispatched (msgs : List SQSMessage)
    (handler : JSON → Except String Unit) (m : SQSMessage) (b : JSON)
    (hm : m ∈ msgs) (hb : json_loads m.Body = some b) :
    Event.handlerCall b ∈ process_messages (.ok (some msgs)) handler := by
  simp only [process_messages, receive_messages, Option.getD_some]
  apply List.mem_cons_of_mem
  induction msgs with
  | nil => cases hm
  | cons m1 rest ih =>
    simp only [dispatchAll]
    rcases List.mem_cons.mp hm with h1 | hmem
    · subst h1
      apply List.mem_append_left
      cases hh : handler b <;> simp [processOne, hb, hh]
    · exact List.mem_append_right _ (ih hmem)

/-- Witness for `c4_sibling_messages_still_dispatched`: a two-message batch
whose first message makes the handler raise; the second message's handler
call is still in the trace. -/
theorem c4_witness :
    (⟨"1".toList, "rh2"⟩ : SQSMessage) ∈
      [(⟨"null".toList, "rh1"⟩ : SQSMessage), ⟨"1".toList, "rh2"⟩] ∧
    json_loads (SQSMessage.mk "1".toList "rh2").Body = some (.num 1) ∧
    Event.handlerCall (.num 1) ∈
      process_messages (.ok (some [⟨"null".toList, "rh1"⟩, ⟨"1".toList, "rh2"⟩]))
        (fun j => match j with | .null => .error "boom" | _ => .ok ()) :=
  ⟨List.mem_cons_of_mem _ (List.mem_cons_self _ _), rfl,
    c4_sibling_messages_still_dispatched _ _ ⟨"1".toList, "rh2"⟩ (.num 1)
      (List.mem_cons_of_mem _ (List.mem_cons_self _ _)) rfl⟩

/-- C5: when the handler completes without raising on a delivered message,
`process_messages` issues exactly one delete, and it carries that message's
own receipt token (tokens unique within the batch). -/
theorem c5_exactly_one_delete_on_success (msgs : List SQSMessage)
    (handler : JSON → Except String Unit) (m : SQSMessage) (b : JSON)
    (hm : m ∈ msgs) (hb : json_loads m.Body = some b) (hs : handler b = .ok ())
    (hu : msgs.countP (hasRH m.ReceiptHandle) = 1) :
    (process_messages (.ok (some msgs)) handler).countP
      (isDeleteFor m.ReceiptHandle) = 1 := by
  have hc : consumed handler m = true := by simp [consumed, hb, hs]
  have upper :
      msgs.countP (fun m2 => hasRH m.ReceiptHandle m2 && consumed handler m2) ≤
        msgs.countP (hasRH m.ReceiptHandle) := by
    apply List.countP_mono_left
    intro a _ h
    revert h
    cases hasRH m.ReceiptHandle a <;> simp
  have lower :
      0 < msgs.countP (fun m2 => hasRH m.ReceiptHandle m2 && consumed handler m2) :=
    List.countP_pos_iff.mpr ⟨m, hm, by simp [hasRH, hc]⟩
  simp only [process_messages, receive_messages, Option.getD_some,
    List.countP_cons, dispatchAll_countP_delete]
  simp [isDeleteFor]
  omega

/-- Witness for `c5_exactly_one_delete_on_success`: a singleton batch whose
handler succeeds; exactly one delete, with that message's token. -/
theorem c5_witness :
    (⟨"null".toList, "rh1"⟩ : SQSMessage) ∈
      [(⟨"null".toList, "rh1"⟩ : SQSMessage)] ∧
    json_loads (SQSMessage.mk "null".toList "rh1").Body = some .null ∧
    ([(⟨"null".toList, "rh1"⟩ : SQSMessage)].countP (hasRH "rh1") = 1) ∧
    (process_messages (.ok (some [⟨"null".toList, "rh1"⟩]))
      (fun _ => .ok ())).countP (isDeleteFor "rh1") = 1 :=
  ⟨List.mem_cons_self _ _, rfl, by decide,
    c5_exactly_one_delete_on_success _ _ ⟨"null".toList, "rh1"⟩ .null
      (List.mem_cons_self _ _) rfl rfl (by decide)⟩

/-- Witness for `c3_no_delete_on_handler_failure`: a singleton batch whose
handler raises; the trace contains no delete for the message's token. -/
theorem c3_witness :
    (⟨"null".toList, "rh1"⟩ : SQSMessage) ∈
      [(⟨"null".toList, "rh1"⟩ : SQSMessage)] ∧
    json_loads (SQSMessage.mk "null".toList "rh1").Body = some .null ∧
    (process_messages (.ok (some [⟨"null".toList, "rh1"⟩]))
      (fun _ => .error "boom")).countP (isDeleteFor "rh1") = 0 :=
  ⟨List.mem_cons_self _ _, rfl,
    c3_no_delete_on_handler_failure _ _ ⟨"null".toList, "rh1"⟩ .null "boom"
      (List.mem_cons_self _ _) rfl rfl
      (by intro m2 hm2 _; simpa using hm2)⟩

/-- C10: a delivered message whose body is not valid JSON — e.g. a plain
string sent unserialized through `send_message` — produces no handler call
and no delete: the `json.loads` failure is absorbed at the per-message
boundary, so the message can leave the queue only via visibility-timeout
redelivery, never via successful consumption. -/
theorem c10_unparseable_body_untouched (handler : JSON → Except String Unit)
    (s : List Char) (rh : String) (h : json_loads s = none) :
    processOne handler ⟨send_message_body (.pystr s), rh⟩ = [] := by
  simp [processOne, send_message_body, h]

/-- Witness for `c10_unparseable_body_untouched`: the plain (non-JSON) string
`"hello world"` is skipped entirely — no handler call, no delete. -/
theorem c10_witness :
    json_loads "hello world".toList = none ∧
    processOne (fun _ => .ok ())
      ⟨send_message_body (.pystr "hello world".toList), "rh1"⟩ = [] :=
  ⟨rfl, c10_unparseable_body_untouched _ _ "rh1" rfl⟩

/-- Witness for `c7_per_entry_passthrough` at a concrete two-message batch. -/
theorem c7_per_entry_passthrough_witness :
    (send_message_batch
      (fun entries => Except.ok ⟨entries.map (fun e => e.Id), []⟩)
      [PyBody.pystr ['a'], PyBody.pystr ['b']]).1 =
        some ⟨["0", "1"], []⟩ ∧
    (send_message_batch
      (fun entries => Except.ok ⟨entries.map (fun e => e.Id), []⟩)
      [PyBody.pystr ['a'], PyBody.pystr ['b']]).2 =
        [sqsBatchEntries [PyBody.pystr ['a'], PyBody.pystr ['b']]] :=
  c7_per_entry_passthrough _ _ ⟨["0", "1"], []⟩ rfl

end Sqs
